import Mathlib

/-!
Verification development for the workflow-document transformation core of
the octoherd script that removes end-of-life Node.js versions from GitHub
Actions workflow files.

The embedding models the current revision of the code:
  * `src/utils/yaml-parser.js` : `hasNodeVersionMatrixToRemove` and the
    steps-based `hasNodeVersionToRemove` (the version imported by the
    current `script.js`),
  * `src/script.js` : `updateYamlFile` (the predicate gate, the per-job
    matrix rewrite loop via `yamlDocument.setIn`, and the no-match
    passthrough of the decoded content).

Modelling conventions:
  * A parsed YAML tree is a `YamlValue`: mappings are association lists
    with string keys (workflow keys are YAML string scalars), sequences
    are lists, scalars are numbers or strings.  `YamlValue.null` stands
    both for JavaScript `null`/`undefined` and for YAML null scalars;
    optional chaining (`?.`) short-circuits on it, while an unguarded
    member access on it raises a `TypeError`, modelled as `Except.error`.
  * `Document.get` / `YAMLMap.get` return raw values for scalars and the
    collection itself for collections; both are a `YamlValue` here.
  * JavaScript exceptions (`TypeError` on property access of
    `undefined`, `.includes` on a non-string, ...) are `Except.error`.
  * The transform is modelled over the parsed tree plus the decoded
    text: `updateYamlFile` receives `doc` (the tree `parseDocument`
    yields for `content`) and returns either the unchanged decoded text
    (the byte-identical passthrough of the source), the rewritten tree
    (serialization by `stringify`/`prettier` is out of the core, per the
    spec's scope), or the raised error.
-/

inductive YamlValue where
  | null
  | num (n : Int)
  | str (s : String)
  | seq (items : List YamlValue)
  | map (pairs : List (String × YamlValue))

abbrev YPairs := List (String × YamlValue)

/-- First-match association-list lookup, the behaviour of `YAMLMap.get`
on a mapping's `items`. -/
def plook (k : String) : YPairs → Option YamlValue
  | [] => none
  | (k', v) :: ps => if k' == k then some v else plook k ps

/-- Collapse a missing key (JS `undefined`) and a stored null into the
single nullish value of the model. -/
def nval : Option YamlValue → YamlValue
  | some v => v
  | none => .null

/-- JavaScript truthiness of a value: `null`/`undefined`, `0` and the
empty string are falsy; collections are objects, hence truthy. -/
def truthy : YamlValue → Bool
  | .null => false
  | .num n => !(n == 0)
  | .str s => !(s == "")
  | .seq _ => true
  | .map _ => true

/-- Character-list prefix test. -/
def charsPrefix : List Char → List Char → Bool
  | _, [] => true
  | [], _ :: _ => false
  | c :: cs, d :: ds => c == d && charsPrefix cs ds

/-- Character-list substring occurrence test. -/
def charsContains : List Char → List Char → Bool
  | [], pat => pat.isEmpty
  | c :: cs, pat => charsPrefix (c :: cs) pat || charsContains cs pat

/-- JavaScript substring test `s.includes(pat)`. -/
def containsSub (s pat : String) : Bool :=
  charsContains s.data pat.data

/-- The removal check of `yaml-parser.js` (lines 52 and 81-83):
`nodeVersionsToRemove.includes(v) || nodeVersionsToRemove.map(String).includes(v)`.
Strict equality: a number only equals a number, a string only equals the
decimal rendering of a number. -/
def jsMatch (remove : List Int) (v : YamlValue) : Bool :=
  (match v with
   | .num n => remove.contains n
   | _ => false)
  ||
  (match v with
   | .str s => (remove.map toString).contains s
   | _ => false)

/-- Destructuring `{ value: nodeVersion }` of a sequence item node: a
scalar node exposes its raw value, a collection node has no `.value`
(undefined), a null node holds null. -/
def itemValue : YamlValue → YamlValue
  | .num n => .num n
  | .str s => .str s
  | _ => .null

/-- `items.some(({ value: nodeVersion }) => ...)` over a matrix version
sequence (yaml-parser.js lines 22-25 and 80-83). -/
def seqSomeRemove (remove : List Int) (xs : List YamlValue) : Bool :=
  xs.any (fun x => jsMatch remove (itemValue x))

def errNoGet : String := "TypeError: .get is not a function"
def errNoItems : String := "TypeError: .items is undefined"
def errNoIncludes : String := "TypeError: .includes is not a function"
def errNoKey : String := "TypeError: .key is undefined"

/-- Unguarded `node.get(k)`: a mapping looks the key up (scalar values
come back raw, absent keys are undefined), a sequence finds nothing
under a string key, and calling `.get` on a scalar or on
null/undefined raises a TypeError. -/
def jsGet (v : YamlValue) (k : String) : Except String YamlValue :=
  match v with
  | .map ps => .ok (nval (plook k ps))
  | .seq _ => .ok .null
  | _ => .error errNoGet

/-- `yamlDocument.get('jobs')`: `Document.get` returns undefined rather
than raising when the document's contents are not a mapping holding the
key. -/
def docJobs (doc : YamlValue) : YamlValue :=
  match doc with
  | .map ps => nval (plook "jobs" ps)
  | _ => .null

/-- The selection test of yaml-parser.js lines 46-48:
`step?.get('uses') && step?.get('uses').includes('actions/setup-node')`. -/
def usesSelect (step : YamlValue) : Except String Bool :=
  match step with
  | .null => .ok false
  | .num _ => .error errNoGet
  | .str _ => .error errNoGet
  | .seq _ => .ok false
  | .map ps =>
    match nval (plook "uses" ps) with
    | .null => .ok false
    | .str s => if s == "" then .ok false else .ok (containsSub s "actions/setup-node")
    | .num n => if n == 0 then .ok false else .error errNoIncludes
    | .seq _ => .error errNoIncludes
    | .map _ => .error errNoIncludes

/-- `steps.items.find(step => ...)` with the selection test above. -/
def findStep : List YamlValue → Except String (Option YamlValue)
  | [] => .ok none
  | s :: rest => do
    if (← usesSelect s) then pure (some s) else findStep rest

/-- `foundStep?.get('with').get('node-version')` for a found step (the
second `.get` is unguarded, so a step without `with` raises). -/
def stepNodeVersion (step : YamlValue) : Except String YamlValue := do
  let w ← jsGet step "with"
  match w with
  | .null => .error errNoGet
  | .num _ => .error errNoGet
  | .str _ => .error errNoGet
  | .seq _ => .ok .null
  | .map ps => .ok (nval (plook "node-version" ps))

/-- Processing of the located `steps` value in `hasNodeVersionToRemove`
(yaml-parser.js lines 46-49): `steps.items.find(...)` raises unless
`steps` is a collection (and over a non-empty mapping the pair elements
have no `.get`), then the pinned version is extracted from the found
step. -/
def stepsPinned : YamlValue → Except String YamlValue
  | .seq xs => do
    match (← findStep xs) with
    | none => pure .null
    | some st => stepNodeVersion st
  | .map [] => pure .null
  | .map (_ :: _) => .error errNoGet
  | _ => .error errNoItems

/-- The per-job body of `hasNodeVersionToRemove` (yaml-parser.js lines
44-49): read `job.get('steps')` (unguarded) and process it.  Returns
the nullish value when no step qualifies. -/
def jobPinned (job : YamlValue) : Except String YamlValue := do
  stepsPinned (← jsGet job "steps")

/-- The `for (const { value: job } of jobs.items)` loop of
`hasNodeVersionToRemove`: it returns at the first job whose located
pinned version is truthy. -/
def predAux (remove : List Int) : YPairs → Except String Bool
  | [] => .ok false
  | (_, job) :: rest => do
    let nv ← jobPinned job
    if truthy nv then pure (jsMatch remove nv) else predAux remove rest

/-- Iterating `jobs.items` when `jobs` parsed as a sequence: the
destructured `{ value: job }` of any element is a raw scalar or
undefined, and the unguarded `job.get(...)` of the loop body raises on
every element. -/
def seqJobsAux : List YamlValue → Except String Bool
  | [] => .ok false
  | _ :: _ => .error errNoGet

/-- `hasNodeVersionToRemove(content, nodeVersionsToRemove)` of
`src/utils/yaml-parser.js` lines 37-57 (the steps-based version the
current `script.js` imports), over the parsed document. -/
def hasNodeVersionToRemove (doc : YamlValue) (remove : List Int) : Except String Bool :=
  match docJobs doc with
  | .map js => predAux remove js
  | .seq xs => seqJobsAux xs
  | _ => .error errNoItems

/-- `job.get('strategy')?.get('matrix')` with the first `.get`
unguarded (yaml-parser.js lines 15-17). -/
def matrixOfJobUnguarded (job : YamlValue) : Except String YamlValue := do
  let st ← jsGet job "strategy"
  match st with
  | .null => pure .null
  | .num _ => .error errNoGet
  | .str _ => .error errNoGet
  | .seq _ => pure .null
  | .map ps => pure (nval (plook "matrix" ps))

/-- `job?.get('strategy')?.get('matrix')` as in the rewrite loop of
`script.js` line 124-126: the leading `?.` also guards a nullish job. -/
def matrixOfJobGuarded (job : YamlValue) : Except String YamlValue :=
  match job with
  | .null => pure .null
  | _ => matrixOfJobUnguarded job

/-- `matrix?.items.find(({ key }) => key.value === 'node' || key.value
=== 'node_version')`: short-circuits on a nullish matrix, raises when
`matrix` is a scalar (no `.items`) or a non-empty sequence (elements
have no `.key`), and otherwise returns the first matching pair. -/
def findNodeKey (matrix : YamlValue) : Except String (Option (String × YamlValue)) :=
  match matrix with
  | .null => .ok none
  | .num _ => .error errNoItems
  | .str _ => .error errNoItems
  | .seq [] => .ok none
  | .seq (_ :: _) => .error errNoKey
  | .map ps => .ok (ps.find? (fun p => p.1 == "node" || p.1 == "node_version"))

/-- `nodeVersions.value.items.some(...)` on the located matrix field's
value (yaml-parser.js lines 22-25): raises unless the value is a
collection; over a mapping the destructured `{ value }` of each pair is
a node object, which is never strictly equal to a number or string. -/
def matrixValueSome (remove : List Int) (v : YamlValue) : Except String Bool :=
  match v with
  | .seq xs => .ok (seqSomeRemove remove xs)
  | .map _ => .ok false
  | _ => .error errNoItems

/-- The per-jobs loop of `hasNodeVersionMatrixToRemove` (yaml-parser.js
lines 13-27): it returns at the first job exposing a `node` or
`node_version` matrix field. -/
def matrixPredAux (remove : List Int) : YPairs → Except String Bool
  | [] => .ok false
  | (_, job) :: rest => do
    let mtx ← matrixOfJobUnguarded job
    match (← findNodeKey mtx) with
    | some p => matrixValueSome remove p.2
    | none => matrixPredAux remove rest

/-- `hasNodeVersionMatrixToRemove(content, nodeVersionsToRemove)` of
`src/utils/yaml-parser.js` lines 8-30, over the parsed document. -/
def hasNodeVersionMatrixToRemove (doc : YamlValue) (remove : List Int) : Except String Bool :=
  match docJobs doc with
  | .map js => matrixPredAux remove js
  | .seq xs => seqJobsAux xs
  | _ => .error errNoItems

/-- Update the first pair holding key `k` by `f`, or append `(k, dflt)`
when the key is absent — the behaviour of the yaml library's `setIn`
step on one mapping level. -/
def updateKey : YPairs → String → (YamlValue → YamlValue) → YamlValue → YPairs
  | [], k, _, dflt => [(k, dflt)]
  | (k', x) :: ps, k, f, dflt =>
    if k' == k then (k', f x) :: ps else (k', x) :: updateKey ps k f dflt

/-- `yamlDocument.setIn(path, value)` over string-keyed mapping levels.
Per the spec's Document Model Adapter contract, target paths always
already exist when the rewrite engine calls this; the fallback branch
(building a fresh mapping chain) is never reached at the use sites. -/
def setIn : List String → YamlValue → YamlValue → YamlValue
  | [], _, v => v
  | k :: rest, d, v =>
    match d with
    | .map ps => .map (updateKey ps k (fun old => setIn rest old v) (setIn rest .null v))
    | _ => .map [(k, setIn rest .null v)]

/-- Path-based read over string-keyed mapping levels, used to state
what the rewrite produced. -/
def getIn : List String → YamlValue → Option YamlValue
  | [], d => some d
  | k :: rest, d =>
    match d with
    | .map ps =>
      match plook k ps with
      | some x => getIn rest x
      | none => none
    | _ => none

/-- The plain JavaScript array `NODE_VERSIONS` as the yaml value it
becomes when assigned by `setIn`. -/
def installSeq (install : List Int) : YamlValue :=
  .seq (install.map .num)

/-- Locate a job's `node`/`node_version` matrix field, as the rewrite
loop of `script.js` lines 124-128 does. -/
def jobLocate (job : YamlValue) : Except String (Option (String × YamlValue)) := do
  findNodeKey (← matrixOfJobGuarded job)

/-- One iteration of the rewrite loop of `script.js` lines 123-133:
locate the matrix field of `job` and, if present, perform
`yamlDocument.setIn(['jobs', jobName, 'strategy', 'matrix', fieldName], NODE_VERSIONS)`
on the accumulated document. -/
def rewriteJobStep (install : List Int) (acc : YamlValue) (jobName : String)
    (job : YamlValue) : Except String YamlValue :=
  match jobLocate job with
  | .error e => .error e
  | .ok none => .ok acc
  | .ok (some p) =>
      .ok (setIn ["jobs", jobName, "strategy", "matrix", p.1] acc (installSeq install))

/-- The rewrite loop over the pairs of the jobs mapping, threading the
in-place mutation of the document as an accumulator. -/
def rewriteAux (install : List Int) (acc : YamlValue) : YPairs → Except String YamlValue
  | [] => .ok acc
  | (n, j) :: rest => do
    rewriteAux install (← rewriteJobStep install acc n j) rest

/-- Iterating the rewrite loop when `jobs` parsed as a sequence: the
destructured `{ value: job, key: jobName }` of a scalar element is its
raw value, on which `job?.get` raises; collection and null elements
destructure to nullish values and are skipped. -/
def seqRewriteAux (acc : YamlValue) : List YamlValue → Except String YamlValue
  | [] => .ok acc
  | .num _ :: _ => .error errNoGet
  | .str _ :: _ => .error errNoGet
  | _ :: rest => seqRewriteAux acc rest

/-- The matrix-rewrite phase of `updateYamlFile` (`script.js` lines
115-133): re-read `jobs` from the freshly parsed document and run the
loop. -/
def rewriteLoop (doc : YamlValue) (install : List Int) : Except String YamlValue :=
  match docJobs doc with
  | .map js => rewriteAux install doc js
  | .seq xs => seqRewriteAux doc xs
  | _ => .error errNoItems

/-- Outcome of one `updateYamlFile` invocation: the raised error, the
rewritten document (serialized once by the caller), the byte-identical
decoded input text of the no-match path (line 143), or the `null`
returned for a file that does not exist (line 102). -/
inductive TransformResult where
  | error (msg : String)
  | rewritten (doc : YamlValue)
  | unchanged (text : String)
  | absent

def TransformResult.isUnchanged : TransformResult → Bool
  | .unchanged _ => true
  | _ => false

/-- `updateYamlFile(file, { content, encoding, exists })` of
`src/script.js` lines 101-144, over the parsed tree `doc` of the
decoded `content`: gate on `hasNodeVersionToRemove`, rewrite every
job's located matrix field when the gate fires, otherwise return the
decoded content unchanged. -/
def updateYamlFile (fileExists : Bool) (doc : YamlValue) (content : String)
    (remove install : List Int) : TransformResult :=
  if !fileExists then .absent
  else
    match hasNodeVersionToRemove doc remove with
    | .error e => .error e
    | .ok true =>
      match rewriteLoop doc install with
      | .error e => .error e
      | .ok d => .rewritten d
    | .ok false => .unchanged content

/-- Running the transform on its own output: when the first run
rewrites, feed the rewritten document to a second run (serialization
and re-parsing round-trip the tree; the text argument only feeds the
unchanged payload). -/
def transformTwice (fileExists : Bool) (doc : YamlValue) (content : String)
    (remove install : List Int) : TransformResult :=
  match updateYamlFile fileExists doc content remove install with
  | .rewritten d => updateYamlFile fileExists d content remove install
  | res => res

/-- The pairs of the jobs mapping of a document (empty when the
document has no jobs mapping). -/
def jobsPairs (doc : YamlValue) : YPairs :=
  match docJobs doc with
  | .map js => js
  | _ => []

/-- The job names of a document, in mapping order. -/
def jobNames (doc : YamlValue) : List String :=
  (jobsPairs doc).map Prod.fst

/-- The effect of one loop iteration on the job it names (derived view
of `rewriteJobStep`, used to characterise the loop): replace the
located matrix field inside the job itself. -/
def jobRewrite (install : List Int) (job : YamlValue) : Except String YamlValue :=
  match jobLocate job with
  | .error e => .error e
  | .ok none => .ok job
  | .ok (some p) => .ok (setIn ["strategy", "matrix", p.1] job (installSeq install))

/-- Apply `jobRewrite` to every job of a pairs list (derived view of
the whole loop). -/
def pairsRewrite (install : List Int) : YPairs → Except String YPairs
  | [] => .ok []
  | (n, j) :: rest =>
    match jobRewrite install j with
    | .error e => .error e
    | .ok j2 =>
      match pairsRewrite install rest with
      | .error e => .error e
      | .ok rest2 => .ok ((n, j2) :: rest2)

theorem plook_updateKey_self (ps : YPairs) (k : String) (f : YamlValue → YamlValue)
    (d : YamlValue) :
    plook k (updateKey ps k f d) =
      some (match plook k ps with | some x => f x | none => d) := by
  induction ps with
  | nil => simp [updateKey, plook]
  | cons p ps ih =>
    obtain ⟨k', x⟩ := p
    by_cases h : k' = k
    · simp [updateKey, plook, h]
    · simp [updateKey, plook, beq_iff_eq, h, ih]

theorem plook_updateKey_ne (ps : YPairs) (k k2 : String) (f : YamlValue → YamlValue)
    (d : YamlValue) (h : k ≠ k2) :
    plook k (updateKey ps k2 f d) = plook k ps := by
  induction ps with
  | nil => simp [updateKey, plook, beq_iff_eq, Ne.symm h]
  | cons p ps ih =>
    obtain ⟨k', x⟩ := p
    by_cases h2 : k' = k2
    · subst h2
      simp [updateKey, plook, beq_iff_eq, Ne.symm h]
    · simp [updateKey, plook, beq_iff_eq, h2, ih]

theorem updateKey_append_notin (done rest : YPairs) (n : String) (j : YamlValue)
    (f : YamlValue → YamlValue) (d : YamlValue) (h : n ∉ done.map Prod.fst) :
    updateKey (done ++ (n, j) :: rest) n f d = done ++ (n, f j) :: rest := by
  induction done with
  | nil => simp [updateKey]
  | cons p ps ih =>
    obtain ⟨k', x⟩ := p
    simp only [List.map_cons, List.mem_cons, not_or] at h
    have hne : ¬ (k' = n) := Ne.symm h.1
    simp [updateKey, beq_iff_eq, hne, ih h.2]

theorem plook_of_nodup_mem (ps : YPairs) (n : String) (x : YamlValue)
    (hnd : (ps.map Prod.fst).Nodup) (hmem : (n, x) ∈ ps) : plook n ps = some x := by
  induction ps with
  | nil => cases hmem
  | cons p ps ih =>
    obtain ⟨k', v⟩ := p
    simp only [List.map_cons, List.nodup_cons] at hnd
    rcases List.mem_cons.1 hmem with h | h
    · cases h
      simp [plook]
    · have hne : k' ≠ n := by
        intro hkn
        exact hnd.1 (hkn ▸ List.mem_map_of_mem Prod.fst h)
      simp [plook, beq_iff_eq, hne, ih hnd.2 h]

theorem getIn_setIn (p : List String) (d v : YamlValue) :
    getIn p (setIn p d v) = some v := by
  induction p generalizing d with
  | nil => simp [getIn, setIn]
  | cons k rest ih =>
    cases d with
    | map ps =>
      simp only [setIn, getIn, plook_updateKey_self]
      cases plook k ps <;> simp [ih]
    | null => simp [setIn, getIn, plook, ih]
    | num n => simp [setIn, getIn, plook, ih]
    | str s => simp [setIn, getIn, plook, ih]
    | seq xs => simp [setIn, getIn, plook, ih]

theorem forall2_mem_left {α β : Type} {R : α → β → Prop} {l1 : List α} {l2 : List β}
    (h : List.Forall₂ R l1 l2) {a : α} (ha : a ∈ l1) : ∃ b ∈ l2, R a b := by
  induction h with
  | nil => cases ha
  | cons hR _ ih =>
    rcases List.mem_cons.1 ha with h | h
    · exact ⟨_, List.mem_cons_self _ _, h ▸ hR⟩
    · obtain ⟨b, hb, hRb⟩ := ih h
      exact ⟨b, List.mem_cons_of_mem _ hb, hRb⟩

theorem forall2_fst_eq {l1 l2 : YPairs} {install : List Int}
    (h : List.Forall₂ (fun a b => a.1 = b.1 ∧ jobRewrite install a.2 = .ok b.2) l1 l2) :
    l2.map Prod.fst = l1.map Prod.fst := by
  induction h with
  | nil => rfl
  | cons hR _ ih => simp [ih, hR.1]

theorem pairsRewrite_ok_forall2 (install : List Int) :
    ∀ (ps t' : YPairs), pairsRewrite install ps = .ok t' →
      List.Forall₂ (fun a b => a.1 = b.1 ∧ jobRewrite install a.2 = .ok b.2) ps t' := by
  intro ps
  induction ps with
  | nil =>
    intro t' h
    simp only [pairsRewrite] at h
    cases h
    exact List.Forall₂.nil
  | cons p ps ih =>
    intro t' h
    obtain ⟨n, j⟩ := p
    simp only [pairsRewrite] at h
    cases hj : jobRewrite install j with
    | error e => simp [hj] at h
    | ok j2 =>
      cases hr : pairsRewrite install ps with
      | error e => simp [hj, hr] at h
      | ok rest2 =>
        simp only [hj, hr, Except.ok.injEq] at h
        cases h
        exact List.Forall₂.cons ⟨rfl, hj⟩ (ih _ hr)

theorem jobLocate_some_shape (job : YamlValue) (p : String × YamlValue)
    (h : jobLocate job = .ok (some p)) : ∃ jps, job = .map jps := by
  cases job with
  | map jps => exact ⟨jps, rfl⟩
  | null =>
    simp [jobLocate, matrixOfJobGuarded, findNodeKey, bind, Except.bind, pure,
      Except.pure] at h
  | num n =>
    simp [jobLocate, matrixOfJobGuarded, matrixOfJobUnguarded, jsGet, bind,
      Except.bind, pure, Except.pure] at h
  | str s =>
    simp [jobLocate, matrixOfJobGuarded, matrixOfJobUnguarded, jsGet, bind,
      Except.bind, pure, Except.pure] at h
  | seq xs =>
    simp [jobLocate, matrixOfJobGuarded, matrixOfJobUnguarded, jsGet, findNodeKey,
      bind, Except.bind, pure, Except.pure] at h

theorem jsGet_steps_setIn_strategy (jps : YPairs) (rest : List String) (v : YamlValue) :
    jsGet (setIn ("strategy" :: rest) (.map jps) v) "steps" = jsGet (.map jps) "steps" := by
  simp only [setIn, jsGet]
  rw [plook_updateKey_ne jps "steps" "strategy" _ _ (by decide)]

theorem jobPinned_jobRewrite (install : List Int) (j j2 : YamlValue)
    (h : jobRewrite install j = .ok j2) : jobPinned j2 = jobPinned j := by
  unfold jobRewrite at h
  cases hl : jobLocate j with
  | error e => rw [hl] at h; cases h
  | ok o =>
    rw [hl] at h
    cases o with
    | none =>
      cases h
      rfl
    | some p =>
      cases h
      obtain ⟨jps, rfl⟩ := jobLocate_some_shape j p hl
      simp only [jobPinned, jsGet_steps_setIn_strategy]

theorem predAux_congr (remove : List Int) (ps t' : YPairs)
    (h : List.Forall₂ (fun a b : String × YamlValue => jobPinned b.2 = jobPinned a.2) ps t') :
    predAux remove t' = predAux remove ps := by
  induction h with
  | nil => rfl
  | @cons a b l1 l2 hR hrest ih =>
    obtain ⟨n, j⟩ := a
    obtain ⟨m, j2⟩ := b
    simp only [predAux]
    simp only at hR
    rw [hR]
    cases hjp : jobPinned j with
    | error e => rfl
    | ok nv =>
      simp only [bind, Except.bind]
      by_cases ht : truthy nv
      · simp [ht]
      · simp [ht, ih]

theorem docJobs_map_shape (doc : YamlValue) (js : YPairs) (h : docJobs doc = .map js) :
    ∃ rps, doc = .map rps ∧ plook "jobs" rps = some (.map js) := by
  cases doc with
  | map rps =>
    refine ⟨rps, rfl, ?_⟩
    simp only [docJobs] at h
    cases hp : plook "jobs" rps with
    | none => rw [hp] at h; cases h
    | some x => rw [hp] at h; simp only [nval] at h; rw [h]
  | null => cases h
  | num n => cases h
  | str s => cases h
  | seq xs => cases h

theorem pred_true_shape (doc : YamlValue) (remove : List Int)
    (h : hasNodeVersionToRemove doc remove = .ok true) :
    ∃ rps js, doc = .map rps ∧ plook "jobs" rps = some (.map js) ∧
      docJobs doc = .map js ∧ predAux remove js = .ok true := by
  unfold hasNodeVersionToRemove at h
  cases hdj : docJobs doc with
  | map js =>
    obtain ⟨rps, hdoc, hp⟩ := docJobs_map_shape doc js hdj
    rw [hdj] at h
    exact ⟨rps, js, hdoc, hp, rfl, h⟩
  | null => rw [hdj] at h; cases h
  | num n => rw [hdj] at h; cases h
  | str s => rw [hdj] at h; cases h
  | seq xs =>
    rw [hdj] at h
    cases xs with
    | nil => cases h
    | cons x xs => cases h

theorem plook_setIn_jobs (rps done rest : YPairs) (n : String) (j v : YamlValue)
    (path : List String)
    (hj : plook "jobs" rps = some (.map (done ++ (n, j) :: rest)))
    (hmem : n ∉ done.map Prod.fst) :
    ∃ rps2, setIn ("jobs" :: n :: path) (.map rps) v = .map rps2 ∧
      plook "jobs" rps2 = some (.map (done ++ (n, setIn path j v) :: rest)) := by
  refine ⟨updateKey rps "jobs" (fun old => setIn (n :: path) old v)
    (setIn (n :: path) .null v), rfl, ?_⟩
  rw [plook_updateKey_self, hj]
  show some (setIn (n :: path) (.map (done ++ (n, j) :: rest)) v) = _
  simp only [setIn]
  rw [updateKey_append_notin done rest n j _ _ hmem]

theorem rewriteAux_char (install : List Int) :
    ∀ (todo done rps : YPairs),
      plook "jobs" rps = some (.map (done ++ todo)) →
      ((done ++ todo).map Prod.fst).Nodup →
      (match pairsRewrite install todo with
       | .error e => rewriteAux install (.map rps) todo = .error e
       | .ok t' => ∃ rps', rewriteAux install (.map rps) todo = .ok (.map rps') ∧
           plook "jobs" rps' = some (.map (done ++ t'))) := by
  intro todo
  induction todo with
  | nil =>
    intro done rps hj hnd
    simp only [pairsRewrite, rewriteAux]
    exact ⟨rps, rfl, by simpa using hj⟩
  | cons p rest ih =>
    intro done rps hj hnd
    obtain ⟨n, j⟩ := p
    simp only [pairsRewrite, rewriteAux, rewriteJobStep, jobRewrite]
    cases hl : jobLocate j with
    | error e => simp only [bind, Except.bind]
    | ok o =>
      cases o with
      | none =>
        simp only [bind, Except.bind]
        have hj2 : plook "jobs" rps = some (.map ((done ++ [(n, j)]) ++ rest)) := by
          simpa using hj
        have hnd2 : ((((done ++ [(n, j)]) ++ rest)).map Prod.fst).Nodup := by
          simpa using hnd
        have hih := ih (done ++ [(n, j)]) rps hj2 hnd2
        cases hr : pairsRewrite install rest with
        | error e =>
          rw [hr] at hih
          exact hih
        | ok rest2 =>
          rw [hr] at hih
          obtain ⟨rps', h1, h2⟩ := hih
          exact ⟨rps', h1, by simpa using h2⟩
      | some q =>
        simp only [bind, Except.bind]
        have hmem : n ∉ done.map Prod.fst := by
          rw [List.map_append] at hnd
          have hdisj := (List.nodup_append.1 hnd).2.2
          intro hc
          exact hdisj hc (by simp)
        obtain ⟨rps2, hacc, hplook2⟩ := plook_setIn_jobs rps done rest n j
          (installSeq install) ["strategy", "matrix", q.1] hj hmem
        rw [hacc]
        have hj2 : plook "jobs" rps2 = some (.map
            ((done ++ [(n, setIn ["strategy", "matrix", q.1] j (installSeq install))]) ++ rest)) := by
          simpa using hplook2
        have hnd2 : (((done ++ [(n, setIn ["strategy", "matrix", q.1] j (installSeq install))])
            ++ rest).map Prod.fst).Nodup := by
          simpa using hnd
        have hih := ih (done ++ [(n, setIn ["strategy", "matrix", q.1] j (installSeq install))])
          rps2 hj2 hnd2
        cases hr : pairsRewrite install rest with
        | error e =>
          rw [hr] at hih
          exact hih
        | ok rest2 =>
          rw [hr] at hih
          obtain ⟨rps', h1, h2⟩ := hih
          exact ⟨rps', h1, by simpa using h2⟩

theorem rewritten_char (doc : YamlValue) (content : String) (remove install : List Int)
    (d : YamlValue) (hnd : (jobNames doc).Nodup)
    (h : updateYamlFile true doc content remove install = .rewritten d) :
    hasNodeVersionToRemove doc remove = .ok true ∧
    ∃ t', pairsRewrite install (jobsPairs doc) = .ok t' ∧ docJobs d = .map t' := by
  unfold updateYamlFile at h
  simp only [Bool.not_true, Bool.false_eq_true, if_false] at h
  cases hpred : hasNodeVersionToRemove doc remove with
  | error e => rw [hpred] at h; cases h
  | ok b =>
    cases b with
    | false => rw [hpred] at h; cases h
    | true =>
      rw [hpred] at h
      refine ⟨rfl, ?_⟩
      cases hloop : rewriteLoop doc install with
      | error e => rw [hloop] at h; cases h
      | ok d0 =>
        rw [hloop] at h
        cases h
        obtain ⟨rps, js, hdoc, hp, hdj, hpa⟩ := pred_true_shape doc remove hpred
        have hjs : jobsPairs doc = js := by simp [jobsPairs, hdj]
        have hnames : jobNames doc = js.map Prod.fst := by simp [jobNames, hjs]
        rw [hnames] at hnd
        subst hdoc
        simp only [rewriteLoop, hdj] at hloop
        have hchar := rewriteAux_char install js [] rps (by simpa using hp) (by simpa using hnd)
        cases hpr : pairsRewrite install js with
        | error e =>
          rw [hpr] at hchar
          rw [hchar] at hloop
          cases hloop
        | ok t' =>
          rw [hpr] at hchar
          obtain ⟨rps', h1, h2⟩ := hchar
          rw [h1] at hloop
          cases hloop
          refine ⟨t', by rw [hjs]; exact hpr, ?_⟩
          simp only [docJobs]
          rw [h2]
          simp [nval]

theorem pred_preserved (doc d : YamlValue) (content : String) (remove install : List Int)
    (hnd : (jobNames doc).Nodup)
    (h : updateYamlFile true doc content remove install = .rewritten d) :
    hasNodeVersionToRemove d remove = .ok true := by
  obtain ⟨hpred, t', hpr, hdj2⟩ := rewritten_char doc content remove install d hnd h
  obtain ⟨rps, js, hdoc, hp, hdj, hpa⟩ := pred_true_shape doc remove hpred
  have hjs : jobsPairs doc = js := by simp [jobsPairs, hdj]
  rw [hjs] at hpr
  have hf2 := pairsRewrite_ok_forall2 install js t' hpr
  have hcong : predAux remove t' = predAux remove js :=
    predAux_congr remove js t'
      (hf2.imp (fun a b hab => jobPinned_jobRewrite install a.2 b.2 hab.2))
  simp only [hasNodeVersionToRemove, hdj2]
  rw [hcong]
  exact hpa

theorem jsGet_steps_jobRewrite (install : List Int) (j j2 : YamlValue)
    (h : jobRewrite install j = .ok j2) : jsGet j2 "steps" = jsGet j "steps" := by
  unfold jobRewrite at h
  cases hl : jobLocate j with
  | error e => rw [hl] at h; cases h
  | ok o =>
    rw [hl] at h
    cases o with
    | none => cases h; rfl
    | some p =>
      cases h
      obtain ⟨jps, rfl⟩ := jobLocate_some_shape j p hl
      exact jsGet_steps_setIn_strategy jps _ _

theorem jsMatch_iff (remove : List Int) (v : YamlValue) :
    jsMatch remove v = true ↔
      ∃ n ∈ remove, v = .num n ∨ v = .str (toString n) := by
  cases v with
  | num m =>
    simp only [jsMatch, Bool.or_false, List.contains, List.elem_iff,
      YamlValue.num.injEq, YamlValue.str.injEq]
    constructor
    · intro h; exact ⟨m, h, Or.inl rfl⟩
    · rintro ⟨n, hn, h | h⟩
      · cases h; exact hn
      · cases h
  | str s =>
    simp only [jsMatch, Bool.false_or, List.contains, List.elem_iff, List.mem_map,
      YamlValue.str.injEq]
    constructor
    · rintro ⟨n, hn, hs⟩; exact ⟨n, hn, Or.inr (by rw [hs])⟩
    · rintro ⟨n, hn, h | h⟩
      · cases h
      · cases h; exact ⟨n, hn, rfl⟩
  | null => simp [jsMatch]
  | seq xs => simp [jsMatch]
  | map ps => simp [jsMatch]

theorem getIn_cons_map (k : String) (rest : List String) (ps : YPairs) (x : YamlValue)
    (h : plook k ps = some x) : getIn (k :: rest) (.map ps) = getIn rest x := by
  simp [getIn, h]

/-- Core fact shared by the matrix-replacement claims: in a completed
rewrite, any job of the input whose matrix field was located gets that
field set to exactly the install sequence in the output document. -/
theorem rewritten_matrix_set (doc d : YamlValue) (content : String)
    (remove install : List Int) (n : String) (j : YamlValue) (f : String) (w : YamlValue)
    (hnd : (jobNames doc).Nodup)
    (hres : updateYamlFile true doc content remove install = .rewritten d)
    (hmem : (n, j) ∈ jobsPairs doc)
    (hloc : jobLocate j = .ok (some (f, w))) :
    getIn ["jobs", n, "strategy", "matrix", f] d = some (installSeq install) := by
  obtain ⟨hpred, t', hpr, hdj2⟩ := rewritten_char doc content remove install d hnd hres
  have hf2 := pairsRewrite_ok_forall2 install (jobsPairs doc) t' hpr
  obtain ⟨b, hb, hR⟩ := forall2_mem_left hf2 hmem
  obtain ⟨m, j2⟩ := b
  obtain ⟨hfst, hjr⟩ := hR
  simp only at hfst hjr
  subst hfst
  have hj2 : j2 = setIn ["strategy", "matrix", f] j (installSeq install) := by
    unfold jobRewrite at hjr
    rw [hloc] at hjr
    cases hjr
    rfl
  have hkeys : t'.map Prod.fst = (jobsPairs doc).map Prod.fst := forall2_fst_eq hf2
  have hndt : (t'.map Prod.fst).Nodup := by rw [hkeys]; exact hnd
  obtain ⟨rps', hd, hpl⟩ := docJobs_map_shape d t' hdj2
  subst hd
  rw [getIn_cons_map "jobs" _ rps' (.map t') hpl,
    getIn_cons_map n _ t' j2 (plook_of_nodup_mem t' n j2 hndt hb), hj2]
  exact getIn_setIn _ _ _

/-- Steps sequence holding a single setup-node step pinned to `v`. -/
def setupSteps (v : YamlValue) : YamlValue :=
  .seq [.map [("uses", .str "actions/setup-node@v4"), ("with", .map [("node-version", v)])]]

/-- Job holding only a pinned setup-node step. -/
def pinJob (v : YamlValue) : YamlValue :=
  .map [("steps", setupSteps v)]

/-- Job holding only a strategy matrix version list under field `f`. -/
def matrixJob (f : String) (xs : List YamlValue) : YamlValue :=
  .map [("strategy", .map [("matrix", .map [(f, .seq xs)])])]

/-- Job holding both a matrix version list and a pinned setup-node step. -/
def mixedJob (f : String) (xs : List YamlValue) (pin : YamlValue) : YamlValue :=
  .map [("strategy", .map [("matrix", .map [(f, .seq xs)])]), ("steps", setupSteps pin)]

def doc1 : YamlValue := .map [("jobs", .map [("test", pinJob (.num 14))])]
def doc2 : YamlValue := .map [("jobs", .map [("build", pinJob (.num 16))])]
def doc2c : YamlValue := .map [("jobs", .map [("test", pinJob (.num 14))])]
def doc3c : YamlValue := .map [("jobs", .map [("test", matrixJob "node" [.num 14])])]
def doc3w : YamlValue := .map [("jobs", .map [("test", mixedJob "node" [.num 14] (.num 14))])]
def doc3wR : YamlValue := .map [("jobs", .map [("test", mixedJob "node" [.num 18, .num 20] (.num 14))])]
def doc6 : YamlValue := .map [("jobs", .map [("a", pinJob (.num 20)), ("b", pinJob (.num 14))])]
def doc9w : YamlValue := .map [("jobs", .map [("test", pinJob (.num 20))])]
def doc9c : YamlValue := .map [("jobs", .map [("test", matrixJob "node" [.num 20])])]
def doc10 : YamlValue := .map [("jobs", .map [("test", mixedJob "node" [.num 20] (.num 14))])]
def doc10R : YamlValue := .map [("jobs", .map [("test", mixedJob "node" [.num 18, .num 20] (.num 14))])]

/-- C4 (amended): a document whose root mapping has no `jobs` entry
makes the removal predicate raise a TypeError (`jobs.items` on
undefined), which the transform propagates; it does not return
normally with an Unchanged result. -/
theorem claim4_missing_jobs_raises (rps : YPairs) (content : String)
    (remove install : List Int) (h : plook "jobs" rps = none) :
    updateYamlFile true (.map rps) content remove install = .error errNoItems := by
  have hpred : hasNodeVersionToRemove (.map rps) remove = .error errNoItems := by
    simp [hasNodeVersionToRemove, docJobs, h, nval]
  simp [updateYamlFile, hpred]

theorem claim4_witness :
    plook "jobs" [("name", YamlValue.str "ci")] = none ∧
      updateYamlFile true (.map [("name", .str "ci")]) "t" [14, 16] [18, 20] =
        .error errNoItems :=
  ⟨rfl, claim4_missing_jobs_raises [("name", .str "ci")] "t" [14, 16] [18, 20] rfl⟩

theorem claim4_counterexample :
    updateYamlFile true (.map [("on", .str "push")]) "t" [14, 16] [18, 20] =
        .error errNoItems ∧
      (updateYamlFile true (.map [("on", .str "push")]) "t" [14, 16] [18, 20]).isUnchanged =
        false :=
  ⟨rfl, rfl⟩

/-- C5 (amended): input bytes that do not parse into a mapping document
(the yaml parser yields a scalar or null root for malformed input) make
the transform raise the `jobs.items` TypeError; there is no
ParseFailed/skip result anywhere in the per-file update function. -/
theorem claim5_malformed_raises (content : String) (remove install : List Int) :
    (∀ s, updateYamlFile true (.str s) content remove install = .error errNoItems) ∧
      updateYamlFile true .null content remove install = .error errNoItems := by
  constructor
  · intro s
    simp [updateYamlFile, hasNodeVersionToRemove, docJobs]
  · simp [updateYamlFile, hasNodeVersionToRemove, docJobs]

theorem claim5_counterexample :
    updateYamlFile true (.str "some non-document garbage bytes") "t" [14, 16] [18, 20] =
        .error errNoItems ∧
      (updateYamlFile true (.str "some non-document garbage bytes") "t" [14, 16]
          [18, 20]).isUnchanged = false :=
  ⟨rfl, rfl⟩

/-- C6 (amended): the scan returns at the first job whose located
pinned reference is truthy; the overall result is that single
reference's match status, whatever references later jobs contain. -/
theorem claim6_first_located_only (doc : YamlValue) (n : String) (j : YamlValue)
    (rest : YPairs) (remove : List Int) (v : YamlValue)
    (h1 : docJobs doc = .map ((n, j) :: rest))
    (h2 : jobPinned j = .ok v) (h3 : truthy v = true) :
    hasNodeVersionToRemove doc remove = .ok (jsMatch remove v) := by
  simp only [hasNodeVersionToRemove, h1, predAux]
  simp [h2, h3, bind, Except.bind, pure, Except.pure]

theorem claim6_witness :
    docJobs doc6 = .map [("a", pinJob (.num 20)), ("b", pinJob (.num 14))] ∧
      jobPinned (pinJob (.num 20)) = .ok (.num 20) ∧
      truthy (.num 20) = true ∧
      hasNodeVersionToRemove doc6 [14, 16] = .ok (jsMatch [14, 16] (.num 20)) :=
  ⟨rfl, rfl, rfl,
    claim6_first_located_only doc6 "a" (pinJob (.num 20)) [("b", pinJob (.num 14))]
      [14, 16] (.num 20) rfl rfl rfl⟩

theorem claim6_counterexample :
    hasNodeVersionToRemove doc6 [14, 16] = .ok false ∧
      jobPinned (pinJob (.num 14)) = .ok (.num 14) ∧
      jsMatch [14, 16] (.num 14) = true :=
  ⟨rfl, rfl, rfl⟩

/-- C7: for every entry n of versionsToRemove, the removal check
accepts both the number n and its decimal-string rendering. -/
theorem claim7_dual_representation (remove : List Int) (n : Int) (h : n ∈ remove) :
    jsMatch remove (.num n) = true ∧ jsMatch remove (.str (toString n)) = true := by
  constructor
  · simp [jsMatch, List.contains, List.elem_iff, h]
  · have : toString n ∈ remove.map toString := List.mem_map_of_mem toString h
    simp [jsMatch, List.contains, List.elem_iff, this]

theorem claim7_witness :
    (14 : Int) ∈ ([14, 16] : List Int) ∧
      (jsMatch [14, 16] (.num 14) = true ∧
        jsMatch [14, 16] (.str (toString (14 : Int))) = true) :=
  ⟨by decide, claim7_dual_representation [14, 16] 14 (by decide)⟩

/-- C8: the matrix-list removal predicate is an existential over the
list's elements: it is true exactly when some element's destructured
scalar matches some entry of versionsToRemove (as the number or as its
decimal-string rendering). -/
theorem claim8_list_existential (remove : List Int) (xs : List YamlValue) :
    seqSomeRemove remove xs = true ↔
      ∃ x ∈ xs, ∃ n ∈ remove,
        itemValue x = .num n ∨ itemValue x = .str (toString n) := by
  simp [seqSomeRemove, List.any_eq_true, jsMatch_iff]

/-- C9 (amended): whenever the removal predicate completes normally
and reports no match, the transform returns the decoded input text
byte-identical (the source returns the decoded content itself on this
path). -/
theorem claim9_passthrough (doc : YamlValue) (content : String) (remove install : List Int)
    (h : hasNodeVersionToRemove doc remove = .ok false) :
    updateYamlFile true doc content remove install = .unchanged content := by
  simp [updateYamlFile, h]

theorem claim9_witness :
    hasNodeVersionToRemove doc9w [14, 16] = .ok false ∧
      updateYamlFile true doc9w "text" [14, 16] [18, 20] = .unchanged "text" :=
  ⟨rfl, claim9_passthrough doc9w "text" [14, 16] [18, 20] rfl⟩

theorem claim9_counterexample :
    seqSomeRemove [14, 16] [.num 20] = false ∧
      updateYamlFile true doc9c "text" [14, 16] [18, 20] = .error errNoItems ∧
      (updateYamlFile true doc9c "text" [14, 16] [18, 20]).isUnchanged = false :=
  ⟨rfl, rfl, rfl⟩

/-- C1 (amended): for a document with distinct job names, the second
transform run returns Unchanged exactly when the first one does.  In
particular a document the first run rewrites is rewritten again (never
Unchanged), because the rewrite loop only assigns strategy.matrix
fields and never touches the steps sections that the gating predicate
inspects. -/
theorem claim1_transform_twice (doc : YamlValue) (content : String)
    (remove install : List Int) (hnd : (jobNames doc).Nodup) :
    (transformTwice true doc content remove install).isUnchanged =
      (updateYamlFile true doc content remove install).isUnchanged := by
  cases hres : updateYamlFile true doc content remove install with
  | rewritten d =>
    have hpred2 := pred_preserved doc d content remove install hnd hres
    unfold transformTwice
    rw [hres]
    cases hl2 : rewriteLoop d install with
    | error e => simp [updateYamlFile, hpred2, hl2, TransformResult.isUnchanged]
    | ok d2 => simp [updateYamlFile, hpred2, hl2, TransformResult.isUnchanged]
  | error e => unfold transformTwice; rw [hres]
  | unchanged t => unfold transformTwice; rw [hres]
  | absent => unfold transformTwice; rw [hres]

theorem claim1_counterexample :
    updateYamlFile true doc1 "text" [14, 16] [18, 20] = .rewritten doc1 ∧
      transformTwice true doc1 "text" [14, 16] [18, 20] = .rewritten doc1 ∧
      (transformTwice true doc1 "text" [14, 16] [18, 20]).isUnchanged = false :=
  ⟨rfl, rfl, rfl⟩

theorem claim1_witness :
    (jobNames doc1).Nodup ∧
      (transformTwice true doc1 "text" [14, 16] [18, 20]).isUnchanged =
        (updateYamlFile true doc1 "text" [14, 16] [18, 20]).isUnchanged := by
  have hnd : (jobNames doc1).Nodup := by decide
  exact ⟨hnd, claim1_transform_twice doc1 "text" [14, 16] [18, 20] hnd⟩

/-- C2 (amended): the rewrite never performs a pinned replacement: in
the rewritten document every job of the input keeps its original steps
section verbatim (so a matching `with.node-version` keeps its original
value rather than becoming the last element of versionsToInstall),
because the loop only assigns the strategy.matrix field. -/
theorem claim2_pinned_untouched (doc d : YamlValue) (content : String)
    (remove install : List Int) (n : String) (j : YamlValue)
    (hnd : (jobNames doc).Nodup)
    (hres : updateYamlFile true doc content remove install = .rewritten d)
    (hmem : (n, j) ∈ jobsPairs doc) :
    ∃ j2, (n, j2) ∈ jobsPairs d ∧ jsGet j2 "steps" = jsGet j "steps" := by
  obtain ⟨hpred, t', hpr, hdj2⟩ := rewritten_char doc content remove install d hnd hres
  have hf2 := pairsRewrite_ok_forall2 install (jobsPairs doc) t' hpr
  obtain ⟨b, hb, hR⟩ := forall2_mem_left hf2 hmem
  obtain ⟨m, j2⟩ := b
  obtain ⟨hfst, hjr⟩ := hR
  simp only at hfst hjr
  subst hfst
  refine ⟨j2, ?_, jsGet_steps_jobRewrite install j j2 hjr⟩
  simp only [jobsPairs, hdj2]
  exact hb

theorem claim2_counterexample :
    updateYamlFile true doc2c "t" [14, 16] [18, 20] = .rewritten doc2c ∧
      jobPinned (pinJob (.num 14)) = .ok (.num 14) ∧
      ([18, 20] : List Int).getLast? = some 20 ∧
      ¬ ((14 : Int) = 20) :=
  ⟨rfl, rfl, rfl, by decide⟩

theorem claim2_witness :
    (jobNames doc2).Nodup ∧
      updateYamlFile true doc2 "t" [14, 16] [18, 20] = .rewritten doc2 ∧
      ("build", pinJob (.num 16)) ∈ jobsPairs doc2 ∧
      ∃ j2, ("build", j2) ∈ jobsPairs doc2 ∧
        jsGet j2 "steps" = jsGet (pinJob (.num 16)) "steps" := by
  have hnd : (jobNames doc2).Nodup := by decide
  have hmem : ("build", pinJob (.num 16)) ∈ jobsPairs doc2 := List.Mem.head _
  exact ⟨hnd, rfl, hmem,
    claim2_pinned_untouched doc2 doc2 "t" [14, 16] [18, 20] "build"
      (pinJob (.num 16)) hnd rfl hmem⟩

/-- C3 (amended): matrix rewriting only happens on documents where the
steps-based removal predicate fires (the transform returns Rewritten);
on such a document with distinct job names, a job whose located matrix
version list contains a removable version has that field replaced by
exactly versionsToInstall in the output. -/
theorem claim3_matrix_rewrite (doc d : YamlValue) (content : String)
    (remove install : List Int) (n : String) (j : YamlValue) (f : String)
    (xs : List YamlValue)
    (hnd : (jobNames doc).Nodup)
    (hres : updateYamlFile true doc content remove install = .rewritten d)
    (hmem : (n, j) ∈ jobsPairs doc)
    (hloc : jobLocate j = .ok (some (f, .seq xs)))
    (hxs : seqSomeRemove remove xs = true) :
    getIn ["jobs", n, "strategy", "matrix", f] d = some (installSeq install) :=
  rewritten_matrix_set doc d content remove install n j f (.seq xs) hnd hres hmem hloc

theorem claim3_counterexample :
    seqSomeRemove [14, 16] [.num 14] = true ∧
      updateYamlFile true doc3c "text" [14, 16] [18, 20] = .error errNoItems ∧
      (updateYamlFile true doc3c "text" [14, 16] [18, 20]).isUnchanged = false :=
  ⟨rfl, rfl, rfl⟩

theorem claim3_witness :
    (jobNames doc3w).Nodup ∧
      updateYamlFile true doc3w "t" [14, 16] [18, 20] = .rewritten doc3wR ∧
      ("test", mixedJob "node" [.num 14] (.num 14)) ∈ jobsPairs doc3w ∧
      jobLocate (mixedJob "node" [.num 14] (.num 14)) = .ok (some ("node", .seq [.num 14])) ∧
      seqSomeRemove [14, 16] [.num 14] = true ∧
      getIn ["jobs", "test", "strategy", "matrix", "node"] doc3wR =
        some (installSeq [18, 20]) := by
  have hnd : (jobNames doc3w).Nodup := by decide
  have hmem : ("test", mixedJob "node" [.num 14] (.num 14)) ∈ jobsPairs doc3w :=
    List.Mem.head _
  exact ⟨hnd, rfl, hmem, rfl, rfl,
    claim3_matrix_rewrite doc3w doc3wR "t" [14, 16] [18, 20] "test"
      (mixedJob "node" [.num 14] (.num 14)) "node" [.num 14] hnd rfl hmem rfl rfl⟩

/-- C10: whenever the document-level predicate fires and the rewrite
loop completes, every job of a distinct-name document whose matrix
exposes a node/node_version field has that field set to exactly
versionsToInstall — the job's own matrix contents are never re-checked
before the assignment. -/
theorem claim10_wholesale_replacement (doc d : YamlValue) (content : String)
    (remove install : List Int) (n : String) (j : YamlValue) (f : String) (w : YamlValue)
    (hnd : (jobNames doc).Nodup)
    (hres : updateYamlFile true doc content remove install = .rewritten d)
    (hmem : (n, j) ∈ jobsPairs doc)
    (hloc : jobLocate j = .ok (some (f, w))) :
    getIn ["jobs", n, "strategy", "matrix", f] d = some (installSeq install) :=
  rewritten_matrix_set doc d content remove install n j f w hnd hres hmem hloc

theorem claim10_witness :
    (jobNames doc10).Nodup ∧
      updateYamlFile true doc10 "t" [14, 16] [18, 20] = .rewritten doc10R ∧
      ("test", mixedJob "node" [.num 20] (.num 14)) ∈ jobsPairs doc10 ∧
      jobLocate (mixedJob "node" [.num 20] (.num 14)) = .ok (some ("node", .seq [.num 20])) ∧
      seqSomeRemove [14, 16] [.num 20] = false ∧
      getIn ["jobs", "test", "strategy", "matrix", "node"] doc10R =
        some (installSeq [18, 20]) := by
  have hnd : (jobNames doc10).Nodup := by decide
  have hmem : ("test", mixedJob "node" [.num 20] (.num 14)) ∈ jobsPairs doc10 :=
    List.Mem.head _
  exact ⟨hnd, rfl, hmem, rfl, rfl,
    claim10_wholesale_replacement doc10 doc10R "t" [14, 16] [18, 20] "test"
      (mixedJob "node" [.num 20] (.num 14)) "node" (.seq [.num 20]) hnd rfl hmem rfl⟩
